import Mathlib

/-!
Verification development for the cascflow library
(`src/cascflow/cascflow.py`).

The Python functions relevant to the claims are shallowly embedded as
executable Lean definitions:

* `save_digital_object_file_versions` (reconciliation of digital-object
  file versions, lines 76-102), with the Python `dict` modelled as an
  association list with insertion-order semantics (`dictInsert`,
  `new_file_uri_values`, `addExisting`);
* `find_archival_object` (lines 446-471) and
  `validate_metadata_identifier` with its inner
  `classify_archival_object_eligibility` (lines 507-626), over an
  abstract repository/object-store environment `Env`;
* the error-branching of `create_digital_object` (lines 135-150);
* the sorted batch iteration of `execute` (lines 291-293);
* `inspect_entry_directory` and the directory-inspection part of
  `validate_digital_files` (lines 648-655 and 734-743), including the
  list-aliasing behaviour of the Python code (the returned lists are the
  caller's own lists, which the caller then extends with themselves).
-/

/-- A digital-object file version (a Python dict in the source).  The merge
logic of `save_digital_object_file_versions` reads and writes the keys
`file_uri`, `publish` and `is_representative`; all other keys of the dict
are opaque to the merge and are modelled by the `payload` field. -/
structure FileVersion where
  file_uri : String
  publish : Bool
  is_representative : Bool
  payload : Nat
deriving DecidableEq

/-- The resolved digital object stored inside an instance of an archival
object (`instance["digital_object"]["_resolved"]`): its `uri`, its list of
`file_versions`, and its overall `publish` flag. -/
structure DigitalObject where
  uri : String
  file_versions : List FileVersion
  publish : Bool
deriving DecidableEq

/-- An archival object (catalog record).  An element `some d` of
`instances` is an instance carrying a `digital_object` key whose resolved
digital object is `d`; `none` is an instance without a `digital_object`
key. -/
structure ArchivalObject where
  uri : String
  component_id : String
  title : String
  instances : List (Option DigitalObject)
deriving DecidableEq

/-- A Python `dict` keyed by file URI, as used at lines 84-98: an
association list in insertion order. -/
abbrev FVDict := List (String × FileVersion)

/-- The keys of the dict, in insertion order. -/
def fvKeys (d : FVDict) : List String := d.map Prod.fst

/-- Python dict assignment `d[k] = v`: if `k` is already a key, the value
is replaced in place (the key keeps its position); otherwise the pair is
appended at the end. -/
def dictInsert (d : FVDict) (k : String) (v : FileVersion) : FVDict :=
  if k ∈ fvKeys d then d.map (fun p => if p.1 = k then (k, v) else p)
  else d ++ [(k, v)]

/-- The dict comprehension at lines 85-88,
`{fv["file_uri"]: fv for fv in new_file_versions}`, processing the new
file versions left to right starting from the accumulator `d`. -/
def new_file_uri_values (d : FVDict) : List FileVersion → FVDict
  | [] => d
  | fv :: rest => new_file_uri_values (dictInsert d fv.file_uri fv) rest

/-- Demotion of a pre-existing file version (lines 92-93):
`publish = False`, `is_representative = False`. -/
def demoteFV (fv : FileVersion) : FileVersion :=
  { fv with publish := false, is_representative := false }

/-- The loop at lines 90-96: for each existing file version whose
`file_uri` is not yet a key of the (growing) dict, demote it and insert
it; otherwise skip it. -/
def addExisting (d : FVDict) : List FileVersion → FVDict
  | [] => d
  | fv :: rest =>
    if fv.file_uri ∈ fvKeys d then addExisting d rest
    else addExisting (d ++ [(fv.file_uri, demoteFV fv)]) rest

/-- The merged file-version list (line 98, `list(new_file_uri_values.values())`):
seed the dict with the new file versions, fold the existing ones in, and
take the values in insertion order. -/
def mergeFileVersions (existing new_file_versions : List FileVersion) : List FileVersion :=
  (addExisting (new_file_uri_values [] new_file_versions) existing).map Prod.snd

/-- The body of `save_digital_object_file_versions` (lines 76-102): for
every instance carrying a `digital_object` key, replace the resolved
digital object's `file_versions` with the merged list, set its `publish`
flag to `True`, and POST it back (each performed write is recorded as a
`(uri, updated object)` pair).  Returns the archival object as mutated in
place together with the list of writes.  `saveStep` is the body of the
`for instance in archival_object["instances"]` loop, acting on one
instance; `save_digital_object_file_versions` folds it over the
instances. -/
def saveStep (new_file_versions : List FileVersion)
    (acc : List (Option DigitalObject) × List (String × DigitalObject))
    (inst : Option DigitalObject) :
    List (Option DigitalObject) × List (String × DigitalObject) :=
  match inst with
  | none => (acc.1 ++ [none], acc.2)
  | some dobj =>
    let fvs := mergeFileVersions dobj.file_versions new_file_versions
    let dobj2 := { dobj with file_versions := fvs, publish := true }
    (acc.1 ++ [some dobj2], acc.2 ++ [(dobj.uri, dobj2)])

def save_digital_object_file_versions (archival_object : ArchivalObject)
    (new_file_versions : List FileVersion) :
    ArchivalObject × List (String × DigitalObject) :=
  let r := archival_object.instances.foldl (saveStep new_file_versions) ([], [])
  ({ archival_object with instances := r.1 }, r.2)

/-- Specification-side characterization (not a source function): the
sublist of the existing file versions that the loop at lines 90-96 inserts
into the dict, given the set `seen` of keys already present.  An existing
version is kept when its URI is neither in `seen` nor the URI of an
earlier kept existing version. -/
def keptExisting (seen : List String) : List FileVersion → List FileVersion
  | [] => []
  | fv :: rest =>
    if fv.file_uri ∈ seen then keptExisting seen rest
    else fv :: keptExisting (fv.file_uri :: seen) rest

/-- The values of a well-formed URI-keyed dict are stored under their own
`file_uri` as key. -/
def coherentDict (d : FVDict) : Prop := ∀ p ∈ d, p.2.file_uri = p.1

/-- Invariant of the dicts built at lines 84-96: keys are distinct and
each value sits under its own URI. -/
def goodDict (d : FVDict) : Prop := (fvKeys d).Nodup ∧ coherentDict d

theorem fvKeys_append (d e : FVDict) : fvKeys (d ++ e) = fvKeys d ++ fvKeys e :=
  List.map_append _ _ _

theorem fvKeys_replace (d : FVDict) (k : String) (v : FileVersion) :
    fvKeys (d.map (fun p => if p.1 = k then (k, v) else p)) = fvKeys d := by
  induction d with
  | nil => rfl
  | cons p rest ih =>
    simp only [List.map_cons, fvKeys] at ih ⊢
    by_cases h : p.1 = k
    · simp [h, ih]
    · simp [h, ih]

theorem mem_fvKeys_dictInsert (d : FVDict) (k : String) (v : FileVersion) (a : String) :
    a ∈ fvKeys (dictInsert d k v) ↔ a ∈ fvKeys d ∨ a = k := by
  unfold dictInsert
  by_cases h : k ∈ fvKeys d
  · rw [if_pos h, fvKeys_replace]
    constructor
    · exact Or.inl
    · rintro (ha | rfl)
      · exact ha
      · exact h
  · rw [if_neg h, fvKeys_append]
    simp [fvKeys]

theorem nodup_snoc (l : List String) (k : String) (h : l.Nodup) (hk : k ∉ l) :
    (l ++ [k]).Nodup := by
  refine h.append (List.nodup_singleton k) ?_
  intro a ha hb
  rw [List.mem_singleton] at hb
  exact hk (hb ▸ ha)

theorem nodup_fvKeys_dictInsert (d : FVDict) (k : String) (v : FileVersion)
    (h : (fvKeys d).Nodup) : (fvKeys (dictInsert d k v)).Nodup := by
  unfold dictInsert
  by_cases hk : k ∈ fvKeys d
  · rw [if_pos hk, fvKeys_replace]
    exact h
  · rw [if_neg hk, fvKeys_append]
    exact nodup_snoc _ _ h hk

theorem coherentDict_dictInsert (d : FVDict) (k : String) (v : FileVersion)
    (hd : coherentDict d) (hv : v.file_uri = k) : coherentDict (dictInsert d k v) := by
  unfold dictInsert
  by_cases hk : k ∈ fvKeys d
  · rw [if_pos hk]
    intro p hp
    rw [List.mem_map] at hp
    obtain ⟨q, hq, rfl⟩ := hp
    by_cases h : q.1 = k
    · simp [h, hv]
    · simp only [if_neg h]
      exact hd q hq
  · rw [if_neg hk]
    intro p hp
    rw [List.mem_append] at hp
    rcases hp with hp | hp
    · exact hd p hp
    · rw [List.mem_singleton] at hp
      subst hp
      exact hv

theorem mem_dictInsert (d : FVDict) (k : String) (v : FileVersion) (p : String × FileVersion)
    (hp : p ∈ dictInsert d k v) : p ∈ d ∨ p = (k, v) := by
  unfold dictInsert at hp
  by_cases hk : k ∈ fvKeys d
  · rw [if_pos hk, List.mem_map] at hp
    obtain ⟨q, hq, hq2⟩ := hp
    by_cases h : q.1 = k
    · right
      rw [← hq2, if_pos h]
    · left
      rw [← hq2, if_neg h]
      exact hq
  · rw [if_neg hk, List.mem_append, List.mem_singleton] at hp
    exact hp

theorem goodDict_new_file_uri_values (d : FVDict) (N : List FileVersion) (h : goodDict d) :
    goodDict (new_file_uri_values d N) := by
  induction N generalizing d with
  | nil => exact h
  | cons fv rest ih =>
    exact ih _ ⟨nodup_fvKeys_dictInsert _ _ _ h.1, coherentDict_dictInsert _ _ _ h.2 rfl⟩

theorem goodDict_nil : goodDict [] :=
  ⟨List.nodup_nil, fun p hp => absurd hp (List.not_mem_nil p)⟩

theorem mem_fvKeys_new_file_uri_values (N : List FileVersion) :
    ∀ (d : FVDict) (a : String),
      a ∈ fvKeys (new_file_uri_values d N) ↔ a ∈ fvKeys d ∨ a ∈ N.map FileVersion.file_uri := by
  induction N with
  | nil => simp [new_file_uri_values]
  | cons fv rest ih =>
    intro d a
    rw [new_file_uri_values, ih, mem_fvKeys_dictInsert]
    simp only [List.map_cons, List.mem_cons]
    tauto

theorem mem_new_file_uri_values (N : List FileVersion) :
    ∀ (d : FVDict) (p : String × FileVersion),
      p ∈ new_file_uri_values d N → p ∈ d ∨ p.2 ∈ N := by
  induction N with
  | nil =>
    intro d p hp
    exact Or.inl hp
  | cons fv rest ih =>
    intro d p hp
    rcases ih _ p hp with hp2 | hp2
    · rcases mem_dictInsert _ _ _ _ hp2 with hp3 | hp3
      · exact Or.inl hp3
      · right
        rw [hp3]
        exact List.mem_cons_self _ _
    · right
      exact List.mem_cons_of_mem _ hp2

theorem demoteFV_file_uri (fv : FileVersion) : (demoteFV fv).file_uri = fv.file_uri := rfl

theorem demoteFV_idem (fv : FileVersion) : demoteFV (demoteFV fv) = demoteFV fv := rfl

theorem goodDict_addExisting (E : List FileVersion) :
    ∀ d : FVDict, goodDict d → goodDict (addExisting d E) := by
  induction E with
  | nil => exact fun d h => h
  | cons fv rest ih =>
    intro d h
    rw [addExisting]
    by_cases hf : fv.file_uri ∈ fvKeys d
    · rw [if_pos hf]
      exact ih d h
    · rw [if_neg hf]
      refine ih _ ⟨?_, ?_⟩
      · rw [fvKeys_append]
        exact nodup_snoc _ _ h.1 hf
      · intro p hp
        rw [List.mem_append] at hp
        rcases hp with hp | hp
        · exact h.2 p hp
        · rw [List.mem_singleton] at hp
          subst hp
          rfl

theorem addExisting_append (L1 L2 : List FileVersion) :
    ∀ d : FVDict, addExisting d (L1 ++ L2) = addExisting (addExisting d L1) L2 := by
  induction L1 with
  | nil => intro d; rfl
  | cons fv rest ih =>
    intro d
    simp only [List.cons_append, addExisting, List.append_eq]
    by_cases h : fv.file_uri ∈ fvKeys d
    · rw [if_pos h, ih, if_pos h]
    · rw [if_neg h, ih, if_neg h]

theorem addExisting_eq_append_kept (E : List FileVersion) :
    ∀ (d : FVDict) (seen : List String), (∀ k, k ∈ seen ↔ k ∈ fvKeys d) →
      addExisting d E = d ++ (keptExisting seen E).map (fun fv => (fv.file_uri, demoteFV fv)) := by
  induction E with
  | nil =>
    intro d seen _
    simp [addExisting, keptExisting]
  | cons fv rest ih =>
    intro d seen h
    simp only [addExisting, keptExisting]
    by_cases hf : fv.file_uri ∈ fvKeys d
    · rw [if_pos hf, if_pos ((h _).mpr hf)]
      exact ih d seen h
    · rw [if_neg hf, if_neg (fun hc => hf ((h _).mp hc))]
      have h2 : ∀ k, k ∈ fv.file_uri :: seen ↔ k ∈ fvKeys (d ++ [(fv.file_uri, demoteFV fv)]) := by
        intro k
        rw [List.mem_cons, h k, fvKeys_append, List.mem_append]
        have : fvKeys [(fv.file_uri, demoteFV fv)] = [fv.file_uri] := rfl
        rw [this, List.mem_singleton]
        tauto
      rw [ih _ _ h2]
      simp [List.append_assoc]

theorem addExisting_of_forall_mem (L : List FileVersion) :
    ∀ d : FVDict, (∀ v ∈ L, v.file_uri ∈ fvKeys d) → addExisting d L = d := by
  induction L with
  | nil => intro d _; rfl
  | cons fv rest ih =>
    intro d h
    rw [addExisting, if_pos (h fv (List.mem_cons_self _ _))]
    exact ih d (fun v hv => h v (List.mem_cons_of_mem _ hv))

theorem addExisting_of_forall_fresh (L : List FileVersion) :
    ∀ d : FVDict, (∀ v ∈ L, v.file_uri ∉ fvKeys d) → (L.map FileVersion.file_uri).Nodup →
      (∀ v ∈ L, demoteFV v = v) →
      addExisting d L = d ++ L.map (fun v => (v.file_uri, v)) := by
  induction L with
  | nil =>
    intro d _ _ _
    simp [addExisting]
  | cons fv rest ih =>
    intro d hfresh hnd hdem
    rw [addExisting, if_neg (hfresh fv (List.mem_cons_self _ _)), hdem fv (List.mem_cons_self _ _)]
    rw [List.map_cons, List.nodup_cons] at hnd
    have hfresh2 : ∀ v ∈ rest, v.file_uri ∉ fvKeys (d ++ [(fv.file_uri, fv)]) := by
      intro v hv hk
      rw [fvKeys_append, List.mem_append] at hk
      rcases hk with hk | hk
      · exact hfresh v (List.mem_cons_of_mem _ hv) hk
      · have : fvKeys [(fv.file_uri, fv)] = [fv.file_uri] := rfl
        rw [this, List.mem_singleton] at hk
        exact hnd.1 (List.mem_map.mpr ⟨v, hv, hk⟩)
    rw [ih _ hfresh2 hnd.2 (fun v hv => hdem v (List.mem_cons_of_mem _ hv))]
    simp [List.append_assoc]

theorem map_snd_coherent (d : FVDict) (h : coherentDict d) :
    d.map (fun p => (p.2.file_uri, p.2)) = d := by
  induction d with
  | nil => rfl
  | cons p rest ih =>
    have hp := h p (List.mem_cons_self _ _)
    have hr := ih (fun q hq => h q (List.mem_cons_of_mem _ hq))
    simp [List.map_cons, hr, hp]

theorem map_uri_map_snd (d : FVDict) (h : coherentDict d) :
    (d.map Prod.snd).map FileVersion.file_uri = fvKeys d := by
  rw [List.map_map]
  induction d with
  | nil => rfl
  | cons p rest ih =>
    have hp := h p (List.mem_cons_self _ _)
    have hr := ih (fun q hq => h q (List.mem_cons_of_mem _ hq))
    simp only [List.map_cons, Function.comp_apply, hp, fvKeys] at hr ⊢
    rw [hr]

theorem addExisting_map_snd (seed T : FVDict)
    (hgood : goodDict (seed ++ T))
    (hdem : ∀ p ∈ T, demoteFV p.2 = p.2) :
    addExisting seed ((seed ++ T).map Prod.snd) = seed ++ T := by
  have hcohseed : coherentDict seed := fun p hp => hgood.2 p (List.mem_append_left _ hp)
  have hcohT : coherentDict T := fun p hp => hgood.2 p (List.mem_append_right _ hp)
  have hmem : ∀ v ∈ seed.map Prod.snd, v.file_uri ∈ fvKeys seed := by
    intro v hv
    rw [List.mem_map] at hv
    obtain ⟨p, hp, rfl⟩ := hv
    rw [hcohseed p hp]
    exact List.mem_map.mpr ⟨p, hp, rfl⟩
  have hdisj : List.Disjoint (fvKeys seed) (fvKeys T) := by
    have h1 := hgood.1
    rw [fvKeys_append] at h1
    exact List.disjoint_of_nodup_append h1
  have hndT : (fvKeys T).Nodup := by
    have h1 := hgood.1
    rw [fvKeys_append] at h1
    exact h1.of_append_right
  have hfresh : ∀ v ∈ T.map Prod.snd, v.file_uri ∉ fvKeys seed := by
    intro v hv hk
    rw [List.mem_map] at hv
    obtain ⟨p, hp, rfl⟩ := hv
    rw [hcohT p hp] at hk
    exact hdisj hk (List.mem_map.mpr ⟨p, hp, rfl⟩)
  have hnd2 : ((T.map Prod.snd).map FileVersion.file_uri).Nodup := by
    rw [map_uri_map_snd T hcohT]
    exact hndT
  have hdem2 : ∀ v ∈ T.map Prod.snd, demoteFV v = v := by
    intro v hv
    rw [List.mem_map] at hv
    obtain ⟨p, hp, rfl⟩ := hv
    exact hdem p hp
  rw [List.map_append, addExisting_append, addExisting_of_forall_mem _ seed hmem,
    addExisting_of_forall_fresh _ seed hfresh hnd2 hdem2, List.map_map]
  congr 1
  exact map_snd_coherent T hcohT

theorem mergeFileVersions_idem (E N : List FileVersion) :
    mergeFileVersions (mergeFileVersions E N) N = mergeFileVersions E N := by
  have hseed : goodDict (new_file_uri_values [] N) :=
    goodDict_new_file_uri_values [] N goodDict_nil
  have hshape := addExisting_eq_append_kept E (new_file_uri_values [] N)
    (fvKeys (new_file_uri_values [] N)) (fun k => Iff.rfl)
  have hgood : goodDict (new_file_uri_values [] N ++
      (keptExisting (fvKeys (new_file_uri_values [] N)) E).map
        (fun fv => (fv.file_uri, demoteFV fv))) := by
    rw [← hshape]
    exact goodDict_addExisting E _ hseed
  have hdem : ∀ p ∈ (keptExisting (fvKeys (new_file_uri_values [] N)) E).map
      (fun fv => (fv.file_uri, demoteFV fv)), demoteFV p.2 = p.2 := by
    intro p hp
    rw [List.mem_map] at hp
    obtain ⟨fv, _, rfl⟩ := hp
    exact demoteFV_idem fv
  show (addExisting (new_file_uri_values [] N)
      ((addExisting (new_file_uri_values [] N) E).map Prod.snd)).map Prod.snd
    = (addExisting (new_file_uri_values [] N) E).map Prod.snd
  rw [hshape, addExisting_map_snd _ _ hgood hdem]

theorem mergeFileVersions_uri_nodup (E N : List FileVersion) :
    ((mergeFileVersions E N).map FileVersion.file_uri).Nodup := by
  have hgood := goodDict_addExisting E (new_file_uri_values [] N)
    (goodDict_new_file_uri_values [] N goodDict_nil)
  rw [mergeFileVersions, map_uri_map_snd _ hgood.2]
  exact hgood.1

/-- C3: reconciliation is idempotent and yields no duplicate URIs: for
every digital-object file-version state and every list of new file
versions, applying the reconciliation merge of
`save_digital_object_file_versions` twice with the same new-file-version
list produces the same final file-version list as applying it once, and
in every result the file URIs are pairwise distinct (invariant I3). -/
theorem reconciliation_idempotent_and_uri_nodup
    (existing new_file_versions : List FileVersion) :
    mergeFileVersions (mergeFileVersions existing new_file_versions) new_file_versions
        = mergeFileVersions existing new_file_versions
      ∧ ((mergeFileVersions existing new_file_versions).map FileVersion.file_uri).Nodup :=
  ⟨mergeFileVersions_idem _ _, mergeFileVersions_uri_nodup _ _⟩

theorem keptExisting_uri_not_seen (E : List FileVersion) :
    ∀ (seen : List String) (v : FileVersion), v ∈ keptExisting seen E → v.file_uri ∉ seen := by
  induction E with
  | nil =>
    intro seen v hv
    cases hv
  | cons fv rest ih =>
    intro seen v hv
    rw [keptExisting] at hv
    by_cases h : fv.file_uri ∈ seen
    · rw [if_pos h] at hv
      exact ih seen v hv
    · rw [if_neg h] at hv
      rcases List.mem_cons.mp hv with rfl | hv2
      · exact h
      · intro hs
        exact ih _ v hv2 (List.mem_cons_of_mem _ hs)

theorem mem_keptExisting (E : List FileVersion) :
    ∀ (seen : List String) (fv : FileVersion), (E.map FileVersion.file_uri).Nodup →
      fv ∈ E → fv.file_uri ∉ seen → fv ∈ keptExisting seen E := by
  induction E with
  | nil =>
    intro seen fv _ h _
    cases h
  | cons g rest ih =>
    intro seen fv hnd hmem hns
    rw [List.map_cons, List.nodup_cons] at hnd
    rw [keptExisting]
    rcases List.mem_cons.mp hmem with rfl | hmem2
    · rw [if_neg hns]
      exact List.mem_cons_self _ _
    · by_cases h : g.file_uri ∈ seen
      · rw [if_pos h]
        exact ih seen fv hnd.2 hmem2 hns
      · rw [if_neg h]
        refine List.mem_cons_of_mem _ (ih _ fv hnd.2 hmem2 ?_)
        intro hc
        rcases List.mem_cons.mp hc with he | hc2
        · exact hnd.1 (List.mem_map.mpr ⟨fv, hmem2, he⟩)
        · exact hns hc2

theorem mergeFileVersions_eq (E N : List FileVersion) :
    mergeFileVersions E N = (new_file_uri_values [] N).map Prod.snd
      ++ (keptExisting (N.map FileVersion.file_uri) E).map demoteFV := by
  have hk : ∀ k, k ∈ N.map FileVersion.file_uri ↔ k ∈ fvKeys (new_file_uri_values [] N) := by
    intro k
    rw [mem_fvKeys_new_file_uri_values]
    constructor
    · exact Or.inr
    · rintro (h | h)
      · cases h
      · exact h
  rw [mergeFileVersions, addExisting_eq_append_kept E _ (N.map FileVersion.file_uri) hk,
    List.map_append, List.map_map]
  rfl

theorem new_file_uri_values_of_fresh (N : List FileVersion) :
    ∀ d : FVDict, (∀ v ∈ N, v.file_uri ∉ fvKeys d) → (N.map FileVersion.file_uri).Nodup →
      new_file_uri_values d N = d ++ N.map (fun v => (v.file_uri, v)) := by
  induction N with
  | nil =>
    intro d _ _
    simp [new_file_uri_values]
  | cons fv rest ih =>
    intro d hfresh hnd
    rw [List.map_cons, List.nodup_cons] at hnd
    rw [new_file_uri_values]
    have hni : fv.file_uri ∉ fvKeys d := hfresh fv (List.mem_cons_self _ _)
    have hins : dictInsert d fv.file_uri fv = d ++ [(fv.file_uri, fv)] := by
      rw [dictInsert, if_neg hni]
    rw [hins]
    have hfresh2 : ∀ v ∈ rest, v.file_uri ∉ fvKeys (d ++ [(fv.file_uri, fv)]) := by
      intro v hv hk
      rw [fvKeys_append, List.mem_append] at hk
      rcases hk with hk | hk
      · exact hfresh v (List.mem_cons_of_mem _ hv) hk
      · have heq : fvKeys [(fv.file_uri, fv)] = [fv.file_uri] := rfl
        rw [heq, List.mem_singleton] at hk
        exact hnd.1 (List.mem_map.mpr ⟨v, hv, hk⟩)
    rw [ih _ hfresh2 hnd.2]
    simp [List.append_assoc]

theorem map_snd_pairing (N : List FileVersion) :
    (N.map (fun v => (v.file_uri, v))).map Prod.snd = N := by
  induction N with
  | nil => rfl
  | cons v rest ih => simp only [List.map_cons, ih]

theorem map_snd_new_file_uri_values_nodup (N : List FileVersion)
    (hnd : (N.map FileVersion.file_uri).Nodup) :
    (new_file_uri_values [] N).map Prod.snd = N := by
  rw [new_file_uri_values_of_fresh N [] (fun v _ h => absurd h (List.not_mem_nil _)) hnd]
  rw [List.nil_append]
  exact map_snd_pairing N

/-- A pre-existing file version with the same URI as - but distinct
content from - an earlier pre-existing file version (used to exhibit the
behaviour of the merge on duplicate URIs in the stored state). -/
def fvDupA : FileVersion := { file_uri := "u", publish := true, is_representative := true, payload := 1 }

/-- Second file version with the duplicated URI. -/
def fvDupB : FileVersion := { file_uri := "u", publish := true, is_representative := true, payload := 2 }

/-- C2 counterexample: with two distinct pre-existing file versions that
share the file URI "u" and an empty new-file-version list, the URI "u"
does not occur among the new URIs, yet the second pre-existing version is
not kept in any form (neither as itself nor demoted): only the demoted
first version survives.  So reconciliation does not keep EVERY
pre-existing file version whose URI is absent from the new set. -/
theorem reconciliation_preserves_counterexample :
    fvDupB ∈ [fvDupA, fvDupB]
      ∧ fvDupB.file_uri ∉ ([] : List FileVersion).map FileVersion.file_uri
      ∧ demoteFV fvDupB ∉ mergeFileVersions [fvDupA, fvDupB] []
      ∧ fvDupB ∉ mergeFileVersions [fvDupA, fvDupB] []
      ∧ mergeFileVersions [fvDupA, fvDupB] [] = [demoteFV fvDupA] := by
  decide

/-- C2 (amended): for every catalog-record digital-object state whose
pre-existing file versions carry pairwise-distinct file URIs, the
reconciliation merge keeps (demoted, with publish = false and
is_representative = false) every pre-existing file version whose URI does
not occur among the new file versions' URIs, and every entry of the
result whose URI does occur among the new URIs is one of the new entries
(the pre-existing version with that URI is replaced). -/
theorem reconciliation_preserves_unmatched_demoted
    (existing new_file_versions : List FileVersion)
    (hnd : (existing.map FileVersion.file_uri).Nodup) :
    (∀ fv ∈ existing, fv.file_uri ∉ new_file_versions.map FileVersion.file_uri →
        demoteFV fv ∈ mergeFileVersions existing new_file_versions
          ∧ (demoteFV fv).publish = false ∧ (demoteFV fv).is_representative = false)
      ∧ (∀ v ∈ mergeFileVersions existing new_file_versions,
          v.file_uri ∈ new_file_versions.map FileVersion.file_uri →
            v ∈ new_file_versions) := by
  constructor
  · intro fv hfv hnot
    refine ⟨?_, rfl, rfl⟩
    rw [mergeFileVersions_eq]
    exact List.mem_append_right _
      (List.mem_map.mpr ⟨fv, mem_keptExisting existing _ fv hnd hfv hnot, rfl⟩)
  · intro v hv hvin
    rw [mergeFileVersions_eq] at hv
    rcases List.mem_append.mp hv with hv1 | hv2
    · rw [List.mem_map] at hv1
      obtain ⟨p, hp, rfl⟩ := hv1
      rcases mem_new_file_uri_values _ _ p hp with h | h
      · cases h
      · exact h
    · rw [List.mem_map] at hv2
      obtain ⟨w, hw, rfl⟩ := hv2
      rw [demoteFV_file_uri] at hvin
      exact absurd hvin (keptExisting_uri_not_seen existing _ w hw)

/-- A concrete pre-existing file version. -/
def exFV : FileVersion := { file_uri := "old", publish := true, is_representative := true, payload := 0 }

/-- A concrete new file version. -/
def newFV : FileVersion := { file_uri := "new", publish := true, is_representative := true, payload := 3 }

/-- Witness for the amended C2 at a concrete input. -/
theorem reconciliation_preserves_unmatched_demoted_witness :
    demoteFV exFV ∈ mergeFileVersions [exFV] [newFV] :=
  ((reconciliation_preserves_unmatched_demoted [exFV] [newFV] (by decide)).1
    exFV (by decide) (by decide)).1

/-- C4: for every reconciliation on a record with one linked digital
object, the resulting file-version list is the values of the dict seeded
from the new entries (positioned at the first occurrence of each URI,
with a later new entry winning the value on a URI collision - so exactly
the new entries in input order whenever the new URIs are distinct),
followed by the demoted legacy entries in their original attachment
order, and the digital object written back has its overall publish flag
set to true. -/
theorem reconciliation_order_and_publish (ao : ArchivalObject) (dobj : DigitalObject)
    (new_file_versions : List FileVersion)
    (h : ao.instances = [some dobj]) :
    mergeFileVersions dobj.file_versions new_file_versions
        = (new_file_uri_values [] new_file_versions).map Prod.snd
          ++ (keptExisting (new_file_versions.map FileVersion.file_uri)
                dobj.file_versions).map demoteFV
      ∧ save_digital_object_file_versions ao new_file_versions
          = ({ ao with instances := [some { dobj with
                file_versions := mergeFileVersions dobj.file_versions new_file_versions,
                publish := true }] },
             [(dobj.uri, { dobj with
                file_versions := mergeFileVersions dobj.file_versions new_file_versions,
                publish := true })])
      ∧ ((new_file_versions.map FileVersion.file_uri).Nodup →
          (new_file_uri_values [] new_file_versions).map Prod.snd = new_file_versions) := by
  refine ⟨mergeFileVersions_eq _ _, ?_, map_snd_new_file_uri_values_nodup _⟩
  rw [save_digital_object_file_versions, h]
  rfl

/-- A concrete digital object with one pre-existing file version. -/
def exDO : DigitalObject := { uri := "/digital_objects/1", file_versions := [exFV], publish := false }

/-- A concrete archival object holding one digital-object instance. -/
def exAO : ArchivalObject :=
  { uri := "/archival_objects/1", component_id := "c1", title := "t", instances := [some exDO] }

/-- Witness for C4 at a concrete input: the new entry comes first, the
demoted legacy entry second, and the written-back object is published. -/
theorem reconciliation_order_and_publish_witness :
    save_digital_object_file_versions exAO [newFV]
      = ({ exAO with instances := [some { exDO with
            file_versions := [newFV, demoteFV exFV], publish := true }] },
         [("/digital_objects/1", { exDO with
            file_versions := [newFV, demoteFV exFV], publish := true })]) := by
  rw [(reconciliation_order_and_publish exAO exDO [newFV] rfl).2.1]
  rfl

theorem foldl_saveStep_all_none (new_file_versions : List FileVersion) :
    ∀ (l : List (Option DigitalObject))
      (acc : List (Option DigitalObject) × List (String × DigitalObject)),
      (∀ inst ∈ l, inst = none) →
      l.foldl (saveStep new_file_versions) acc = (acc.1 ++ l, acc.2) := by
  intro l
  induction l with
  | nil =>
    intro acc _
    simp
  | cons inst rest ih =>
    intro acc h2
    have hi := h2 inst (List.mem_cons_self _ _)
    subst hi
    rw [List.foldl_cons, saveStep, ih _ (fun i hi2 => h2 i (List.mem_cons_of_mem _ hi2))]
    simp

/-- C10: for every catalog record none of whose instances carries a
digital_object key, `save_digital_object_file_versions` is a silent
no-op: it returns normally, performs no repository write, and leaves the
record unchanged. -/
theorem save_no_digital_object_is_noop (ao : ArchivalObject)
    (new_file_versions : List FileVersion)
    (h : ∀ inst ∈ ao.instances, inst = none) :
    save_digital_object_file_versions ao new_file_versions = (ao, []) := by
  rw [save_digital_object_file_versions,
    foldl_saveStep_all_none new_file_versions ao.instances ([], []) h]
  rfl

/-- A concrete archival object with two instances, neither of which
carries a digital_object key. -/
def exAOnone : ArchivalObject :=
  { uri := "/archival_objects/2", component_id := "c2", title := "t2",
    instances := [none, none] }

/-- Witness for C10 at a concrete input. -/
theorem save_no_digital_object_is_noop_witness :
    save_digital_object_file_versions exAOnone [newFV] = (exAOnone, []) :=
  save_no_digital_object_is_noop exAOnone [newFV] (by decide)

/-- Abstract environment for the repository and object store: the JSON
lists returned by the `find_by_id` endpoints for resources
(`resources identifier`) and archival objects
(`archival_objects component_id`, the list of `ref`s), the record
resolution GET (`resolve ref`), and the S3 common-prefix listing under a
resource (`s3_paths resource_id`, from
`get_s3_resource_archival_object_paths`). -/
structure Env where
  resources : String → List String
  archival_objects : String → List String
  resolve : String → ArchivalObject
  s3_paths : String → List String

/-- The two `ValueError`s `find_archival_object` can raise (lines
456-459): not found (zero matches) and multiple matches.  Both are the
same Python exception class `ValueError`, distinguished only by
message. -/
inductive FindError
  | notFound
  | multipleMatches
deriving DecidableEq

/-- The body of `find_archival_object` (lines 446-471): fewer than one
match raises a not-found ValueError, more than one match raises a
multiple-matches ValueError, exactly one match resolves the record. -/
def find_archival_object (env : Env) (component_id : String) :
    Except FindError ArchivalObject :=
  match env.archival_objects component_id with
  | [] => .error .notFound
  | [ref] => .ok (env.resolve ref)
  | _ :: _ :: _ => .error .multipleMatches

/-- The closure state of `validate_metadata_identifier`: the
`eligible_archival_objects` dict (component id to resolved record) and
the `ineligible_archival_objects` list. -/
structure EligState where
  eligible_archival_objects : List (String × ArchivalObject)
  ineligible_archival_objects : List String
deriving DecidableEq

/-- Python dict assignment for the eligible mapping, keyed by component
id (same semantics as `dictInsert`). -/
def aoDictInsert (d : List (String × ArchivalObject)) (k : String) (v : ArchivalObject) :
    List (String × ArchivalObject) :=
  if k ∈ d.map Prod.fst then d.map (fun p => if p.1 = k then (k, v) else p)
  else d ++ [(k, v)]

/-- The inner function `classify_archival_object_eligibility` (lines
578-587): try `find_archival_object`; on success store the record in the
eligible dict, on any `ValueError` (not-found OR multiple matches) append
the id to the ineligible list. -/
def classify_archival_object_eligibility (env : Env) (st : EligState)
    (component_id : String) : EligState :=
  match find_archival_object env component_id with
  | .ok archival_object =>
    { st with eligible_archival_objects :=
        aoDictInsert st.eligible_archival_objects component_id archival_object }
  | .error _ =>
    { st with ineligible_archival_objects :=
        st.ineligible_archival_objects ++ [component_id] }

/-- The `for component_id in component_identifiers` loop at lines
611-612: classify each candidate in order, threading the state. -/
def classifyList (env : Env) (st : EligState) : List String → EligState
  | [] => st
  | c :: rest => classifyList env (classify_archival_object_eligibility env st c) rest

/-- `p.split("/")[-2]` at line 606, for the S3 prefixes (which end in a
slash): the next-to-last field of the split. -/
def componentIdOfPath (p : String) : String :=
  let parts := p.splitOn "/"
  parts.getD (parts.length - 2) ""

/-- The dict returned by `validate_metadata_identifier` (lines 622-626). -/
structure ValidationResult where
  identifier_level : String
  eligible_archival_objects : List (String × ArchivalObject)
  ineligible_archival_objects : List String
deriving DecidableEq

/-- The body of `validate_metadata_identifier` (lines 507-626): in
metadata mode, when exactly one resource matches and fewer than one
archival object matches, the identifier is a resource and every published
component id found under it in S3 is classified; otherwise (and in every
non-metadata mode) the identifier is classified directly as a single
archival object. -/
def validate_metadata_identifier (env : Env) (identifier : String) (target : String) :
    ValidationResult :=
  let st0 : EligState := ⟨[], []⟩
  if target = "metadata" then
    if (env.resources identifier).length = 1
        ∧ (env.archival_objects identifier).length < 1 then
      let component_identifiers := (env.s3_paths identifier).map componentIdOfPath
      let st := classifyList env st0 component_identifiers
      ⟨"resource", st.eligible_archival_objects, st.ineligible_archival_objects⟩
    else
      let st := classify_archival_object_eligibility env st0 identifier
      ⟨"archival_object", st.eligible_archival_objects, st.ineligible_archival_objects⟩
  else
    let st := classify_archival_object_eligibility env st0 identifier
    ⟨"archival_object", st.eligible_archival_objects, st.ineligible_archival_objects⟩

/-- A minimal resolved archival-object record. -/
def aoBlank : ArchivalObject := { uri := "", component_id := "", title := "", instances := [] }

/-- Environment in which the component id "X" has two repository
matches. -/
def envMulti : Env :=
  { resources := fun _ => [],
    archival_objects := fun id => if id = "X" then ["/r/1", "/r/2"] else [],
    resolve := fun _ => aoBlank,
    s3_paths := fun _ => [] }

/-- C1 counterexample: a component id with two repository matches does
raise the multiple-match ValueError inside `find_archival_object`, but
eligibility classification (here via `validate_metadata_identifier` in a
non-metadata workflow) catches that ValueError and records the id merely
as ineligible - the error does not propagate to the caller, contradicting
the claim that a multiple-match lookup during eligibility classification
propagates an error and is never recorded as ineligible. -/
theorem multiple_match_counterexample :
    find_archival_object envMulti "X" = .error .multipleMatches
      ∧ validate_metadata_identifier envMulti "X" "files"
          = { identifier_level := "archival_object",
              eligible_archival_objects := [],
              ineligible_archival_objects := ["X"] } :=
  ⟨rfl, rfl⟩

/-- C1 (amended): a multiple-match lookup is fatal in
`find_archival_object` itself (as used by direct lookups such as the
batch stager), but during eligibility classification the raised
ValueError is caught exactly like the not-found case and the component id
is recorded as ineligible; classification does not propagate the
error. -/
theorem multiple_match_fatal_in_find_caught_in_classify (env : Env) (st : EligState)
    (component_id r1 r2 : String) (rest : List String)
    (h : env.archival_objects component_id = r1 :: r2 :: rest) :
    find_archival_object env component_id = .error .multipleMatches
      ∧ classify_archival_object_eligibility env st component_id
          = { st with ineligible_archival_objects :=
                st.ineligible_archival_objects ++ [component_id] } := by
  have hf : find_archival_object env component_id = .error .multipleMatches := by
    unfold find_archival_object
    rw [h]
  refine ⟨hf, ?_⟩
  unfold classify_archival_object_eligibility
  rw [hf]

/-- Witness for the amended C1 at a concrete input. -/
theorem multiple_match_fatal_in_find_caught_in_classify_witness :
    classify_archival_object_eligibility envMulti ⟨[], []⟩ "X"
      = { eligible_archival_objects := [], ineligible_archival_objects := ["X"] } :=
  ((multiple_match_fatal_in_find_caught_in_classify envMulti ⟨[], []⟩
    "X" "/r/1" "/r/2" [] rfl).2).trans rfl

theorem classifyList_append (env : Env) (l1 l2 : List String) :
    ∀ st : EligState, classifyList env st (l1 ++ l2)
      = classifyList env (classifyList env st l1) l2 := by
  induction l1 with
  | nil => intro st; rfl
  | cons c rest ih =>
    intro st
    simp only [List.cons_append, classifyList]
    exact ih _

theorem classify_ineligible_mono (env : Env) (st : EligState) (c x : String)
    (hx : x ∈ st.ineligible_archival_objects) :
    x ∈ (classify_archival_object_eligibility env st c).ineligible_archival_objects := by
  unfold classify_archival_object_eligibility
  cases find_archival_object env c
  · exact List.mem_append_left _ hx
  · exact hx

theorem mem_ineligible_classifyList_mono (env : Env) (ids : List String) :
    ∀ (st : EligState) (x : String), x ∈ st.ineligible_archival_objects →
      x ∈ (classifyList env st ids).ineligible_archival_objects := by
  induction ids with
  | nil => intro st x hx; exact hx
  | cons c rest ih =>
    intro st x hx
    rw [classifyList]
    exact ih _ x (classify_ineligible_mono env st c x hx)

theorem mem_aoDictInsert (d : List (String × ArchivalObject)) (k : String)
    (v : ArchivalObject) (p : String × ArchivalObject)
    (hp : p ∈ aoDictInsert d k v) : p ∈ d ∨ p = (k, v) := by
  unfold aoDictInsert at hp
  by_cases hk : k ∈ d.map Prod.fst
  · rw [if_pos hk, List.mem_map] at hp
    obtain ⟨q, hq, hq2⟩ := hp
    by_cases h : q.1 = k
    · right
      rw [← hq2, if_pos h]
    · left
      rw [← hq2, if_neg h]
      exact hq
  · rw [if_neg hk, List.mem_append, List.mem_singleton] at hp
    exact hp

theorem classify_eligible_characterize (env : Env) (st : EligState) (c : String)
    (p : String × ArchivalObject)
    (hp : p ∈ (classify_archival_object_eligibility env st c).eligible_archival_objects) :
    p ∈ st.eligible_archival_objects
      ∨ (p.1 = c ∧ find_archival_object env c = .ok p.2) := by
  revert hp
  unfold classify_archival_object_eligibility
  cases hf : find_archival_object env c with
  | error e => exact fun hp => Or.inl hp
  | ok a =>
    intro hp
    rcases mem_aoDictInsert _ _ _ _ hp with h | h
    · exact Or.inl h
    · right
      rw [h]
      exact ⟨rfl, rfl⟩

theorem classifyList_eligible_characterize (env : Env) (ids : List String) :
    ∀ (st : EligState) (p : String × ArchivalObject),
      p ∈ (classifyList env st ids).eligible_archival_objects →
        p ∈ st.eligible_archival_objects
          ∨ ∃ a, find_archival_object env p.1 = .ok a := by
  induction ids with
  | nil => intro st p hp; exact Or.inl hp
  | cons c rest ih =>
    intro st p hp
    rw [classifyList] at hp
    rcases ih _ p hp with h2 | h2
    · rcases classify_eligible_characterize env st c p h2 with h3 | h3
      · exact Or.inl h3
      · right
        refine ⟨p.2, ?_⟩
        rw [h3.1]
        exact h3.2
    · exact Or.inr h2

/-- C6: during eligibility classification, a candidate component id with
zero repository matches is recorded in the ineligible list, never appears
as a key of the eligible mapping, and the not-found error is not
re-raised: classification of the remaining candidates still proceeds
(processing `pre ++ id :: post` equals first processing `pre`, then the
failing id, then all of `post`). -/
theorem zero_match_ineligible_and_continues (env : Env) (pre post : List String)
    (component_id : String) (h : env.archival_objects component_id = []) :
    component_id ∈ (classifyList env ⟨[], []⟩
        (pre ++ component_id :: post)).ineligible_archival_objects
      ∧ (∀ p ∈ (classifyList env ⟨[], []⟩
            (pre ++ component_id :: post)).eligible_archival_objects,
          p.1 ≠ component_id)
      ∧ classifyList env ⟨[], []⟩ (pre ++ component_id :: post)
          = classifyList env
              (classify_archival_object_eligibility env
                (classifyList env ⟨[], []⟩ pre) component_id)
              post := by
  have hferr : find_archival_object env component_id = .error .notFound := by
    unfold find_archival_object
    rw [h]
  refine ⟨?_, ?_, ?_⟩
  · rw [classifyList_append, classifyList]
    apply mem_ineligible_classifyList_mono
    unfold classify_archival_object_eligibility
    rw [hferr]
    exact List.mem_append_right _ (List.mem_singleton.mpr rfl)
  · intro p hp hpc
    rcases classifyList_eligible_characterize env _ _ p hp with h2 | h2
    · exact absurd h2 (List.not_mem_nil p)
    · obtain ⟨a, ha⟩ := h2
      rw [hpc, hferr] at ha
      exact Except.noConfusion ha
  · rw [classifyList_append, classifyList]

/-- Environment in which every component id has zero repository
matches. -/
def envZero : Env :=
  { resources := fun _ => [],
    archival_objects := fun _ => [],
    resolve := fun _ => aoBlank,
    s3_paths := fun _ => [] }

/-- Witness for C6 at a concrete input. -/
theorem zero_match_ineligible_and_continues_witness :
    "m" ∈ (classifyList envZero ⟨[], []⟩
      (["a"] ++ "m" :: ["b"])).ineligible_archival_objects :=
  (zero_match_ineligible_and_continues envZero ["a"] ["b"] "m" rfl).1

/-- C5: in metadata mode, classification chooses the resource
interpretation exactly when the resource lookup returns exactly one match
and the archival-object lookup returns zero matches; in every other case
(including an identifier matching both a resource and an item) the result
has identifier_level "archival_object" and is exactly the direct
single-item classification of the identifier. -/
theorem metadata_mode_resource_tiebreak (env : Env) (identifier : String) :
    ((validate_metadata_identifier env identifier "metadata").identifier_level = "resource"
        ↔ ((env.resources identifier).length = 1
            ∧ (env.archival_objects identifier).length = 0))
      ∧ (¬ ((env.resources identifier).length = 1
            ∧ (env.archival_objects identifier).length = 0) →
          validate_metadata_identifier env identifier "metadata"
            = { identifier_level := "archival_object",
                eligible_archival_objects :=
                  (classify_archival_object_eligibility env ⟨[], []⟩
                    identifier).eligible_archival_objects,
                ineligible_archival_objects :=
                  (classify_archival_object_eligibility env ⟨[], []⟩
                    identifier).ineligible_archival_objects }) := by
  have hlt : (env.archival_objects identifier).length < 1
      ↔ (env.archival_objects identifier).length = 0 := Nat.lt_one_iff
  by_cases h : (env.resources identifier).length = 1
      ∧ (env.archival_objects identifier).length < 1
  · have hres : validate_metadata_identifier env identifier "metadata"
        = ⟨"resource",
           (classifyList env ⟨[], []⟩
             ((env.s3_paths identifier).map componentIdOfPath)).eligible_archival_objects,
           (classifyList env ⟨[], []⟩
             ((env.s3_paths identifier).map componentIdOfPath)).ineligible_archival_objects⟩ := by
      unfold validate_metadata_identifier
      rw [if_pos rfl, if_pos h]
    rw [hres]
    exact ⟨⟨fun _ => ⟨h.1, hlt.mp h.2⟩, fun _ => rfl⟩,
      fun hc => absurd ⟨h.1, hlt.mp h.2⟩ hc⟩
  · have hres : validate_metadata_identifier env identifier "metadata"
        = ⟨"archival_object",
           (classify_archival_object_eligibility env ⟨[], []⟩
             identifier).eligible_archival_objects,
           (classify_archival_object_eligibility env ⟨[], []⟩
             identifier).ineligible_archival_objects⟩ := by
      unfold validate_metadata_identifier
      rw [if_pos rfl, if_neg h]
    rw [hres]
    refine ⟨⟨fun he => ?_, fun hz => absurd ⟨hz.1, hlt.mpr hz.2⟩ h⟩, fun _ => rfl⟩
    exact absurd he (by decide : ("archival_object" : String) ≠ "resource")

/-- Environment in which the identifier "B" matches both a resource and
an archival object. -/
def envBoth : Env :=
  { resources := fun id => if id = "B" then ["/resources/1"] else [],
    archival_objects := fun id => if id = "B" then ["/r/9"] else [],
    resolve := fun _ => aoBlank,
    s3_paths := fun _ => [] }

/-- Witness for C5 at a concrete input: an identifier matching both a
resource and an archival object is treated as an archival object and
validated directly. -/
theorem metadata_mode_resource_tiebreak_witness :
    validate_metadata_identifier envBoth "B" "metadata"
      = { identifier_level := "archival_object",
          eligible_archival_objects := [("B", aoBlank)],
          ineligible_archival_objects := [] } := by
  rw [(metadata_mode_resource_tiebreak envBoth "B").2 (by decide)]
  rfl

/-- The JSON body of the repository's response to the digital-object
POST: an optional `error` object (field names mapped to violation-message
lists) and, on success, the new record's `uri`. -/
structure PostResponse where
  error : Option (List (String × List String))
  uri : String
deriving DecidableEq

/-- The possible control-flow outcomes of the response handling at lines
135-150 of `create_digital_object`. -/
inductive CreateDigitalObjectOutcome
  | raiseNonUnique
  | raiseUnexpected
  | created (uri : String)
  | unboundLocalCrash
deriving DecidableEq

/-- The error-branching of `create_digital_object` (lines 135-150): if
the body has an `error` key and the error has a `digital_object_id` key
whose message list contains "Must be unique", a ValueError is raised
(`raiseNonUnique`); if the error has no `digital_object_id` key, a
RuntimeError is raised (`raiseUnexpected`); with no `error` key the
local `digital_object_uri` is bound and execution proceeds (`created`).
When the error has a `digital_object_id` key whose messages do NOT
contain "Must be unique", no branch raises and no branch binds
`digital_object_uri`, so execution falls through to line 155 and crashes
with an UnboundLocalError (`unboundLocalCrash`). -/
def create_digital_object_outcome (resp : PostResponse) : CreateDigitalObjectOutcome :=
  match resp.error with
  | some err =>
    match List.lookup "digital_object_id" err with
    | some msgs =>
      if "Must be unique" ∈ msgs then .raiseNonUnique
      else .unboundLocalCrash
    | none => .raiseUnexpected
  | none => .created resp.uri

/-- C7 evaluation: a response whose error carries a `digital_object_id`
key with a message other than "Must be unique" raises neither the
uniqueness ValueError nor the generic RuntimeError - it falls through to
an unbound-local crash - while the documented uniqueness and generic
shapes behave as claimed. -/
theorem create_digital_object_error_fallthrough :
    create_digital_object_outcome
        { error := some [("digital_object_id", ["Property is required but was missing"])],
          uri := "" }
      = .unboundLocalCrash
    ∧ create_digital_object_outcome
        { error := some [("digital_object_id", ["Must be unique"])], uri := "" }
      = .raiseNonUnique
    ∧ create_digital_object_outcome
        { error := some [("status", ["Forbidden"])], uri := "" }
      = .raiseUnexpected
    ∧ create_digital_object_outcome { error := none, uri := "/repositories/2/digital_objects/9189" }
      = .created "/repositories/2/digital_objects/9189" :=
  ⟨rfl, rfl, rfl, rfl⟩

/-- The ordering of batch entries in `execute` (lines 291-293):
`sorted(batch_directory.joinpath("STAGE_1_INITIAL").iterdir(), key=lambda obj: obj.name)`,
modelled on the list of entry names the filesystem yields, sorted by the
lexicographic string order. -/
def execute_entry_order (listing : List String) : List String :=
  listing.insertionSort (· ≤ ·)

/-- C8: the advance operation yields the STAGE_1 entries sorted
lexicographically by name, independent of the order in which the
filesystem lists them: any two filesystem enumerations of the same entry
set produce the same yield order, the yield order is sorted and is a
permutation of the entries, and the listing ["b1","a2","c3"] is yielded
as a2, b1, c3. -/
theorem execute_entries_sorted (l1 l2 : List String) (hperm : l1.Perm l2) :
    execute_entry_order l1 = execute_entry_order l2
      ∧ (execute_entry_order l1).Sorted (· ≤ ·)
      ∧ (execute_entry_order l1).Perm l1
      ∧ execute_entry_order ["b1", "a2", "c3"] = ["a2", "b1", "c3"] := by
  have h1 : ("a2" : String) ≤ "b1" := String.le_iff_toList_le.mpr (by decide)
  have h2 : ("b1" : String) ≤ "c3" := String.le_iff_toList_le.mpr (by decide)
  have hsorted : List.Sorted (· ≤ ·) ["a2", "b1", "c3"] := by
    refine List.sorted_cons.mpr ⟨?_, List.sorted_cons.mpr ⟨?_, List.sorted_singleton _⟩⟩
    · intro b hb
      rcases List.mem_cons.mp hb with rfl | hb2
      · exact h1
      · rw [List.mem_singleton] at hb2
        subst hb2
        exact h1.trans h2
    · intro b hb
      rw [List.mem_singleton] at hb
      subst hb
      exact h2
  refine ⟨?_, List.sorted_insertionSort _ _, List.perm_insertionSort _ _, ?_⟩
  · apply List.eq_of_perm_of_sorted ?_ (List.sorted_insertionSort _ _)
      (List.sorted_insertionSort _ _)
    exact (List.perm_insertionSort _ l1).trans
      (hperm.trans (List.perm_insertionSort _ l2).symm)
  · exact List.eq_of_perm_of_sorted
      ((List.perm_insertionSort _ _).trans (List.Perm.swap "a2" "b1" ["c3"]))
      (List.sorted_insertionSort _ _) hsorted

/-- Witness for C8 at a concrete input. -/
theorem execute_entries_sorted_witness :
    execute_entry_order ["b1", "a2", "c3"] = execute_entry_order ["c3", "a2", "b1"] :=
  (execute_entries_sorted ["b1", "a2", "c3"] ["c3", "a2", "b1"] (by decide)).1

/-- A filesystem node: a file or a directory with its immediate
children. -/
inductive FSNode where
  | file (name : String)
  | dir (name : String) (children : List FSNode)

/-- `child.is_dir()`. -/
def isDirNode : FSNode → Bool
  | .file _ => false
  | .dir _ _ => true

/-- `child.is_file()`. -/
def isFileNode : FSNode → Bool
  | .file _ => true
  | .dir _ _ => false

/-- `entry.iterdir()` for a directory entry. -/
def childrenOf : FSNode → List FSNode
  | .file _ => []
  | .dir _ cs => cs

/-- `inspect_entry_directory` (lines 648-655): append `entry` to the
caller's nested_directories list when any child is a directory, append it
to the caller's empty_directories list when no child is a file, and
return the two lists - which in Python are the very same list objects the
caller passed in (the function mutates and returns its arguments). -/
def inspect_entry_directory (entry : FSNode)
    (nested_directories empty_directories : List FSNode) :
    List FSNode × List FSNode :=
  let nested2 :=
    if (childrenOf entry).any isDirNode then nested_directories ++ [entry]
    else nested_directories
  let empty2 :=
    if (childrenOf entry).any isFileNode then empty_directories
    else empty_directories ++ [entry]
  (nested2, empty2)

/-- The directory-inspection accumulation of `validate_digital_files`
(lines 734-739) for one entry: for a directory entry the code calls
`inspect_entry_directory` with its own `nested_directories` and
`empty_directories` lists and then `extend`s each list with the
corresponding returned list - which is the same list object, so each list
is extended with a copy of itself (its contents are doubled).  File
entries leave both lists unchanged. -/
def validate_digital_files_dir_step (st : List FSNode × List FSNode) (entry : FSNode) :
    List FSNode × List FSNode :=
  match entry with
  | .file _ => st
  | .dir _ _ =>
    let r := inspect_entry_directory entry st.1 st.2
    (r.1 ++ r.1, r.2 ++ r.2)

/-- The nested_directories and empty_directories lists produced by the
`for entry in source_path.iterdir()` loop of `validate_digital_files`
(lines 720-739), starting from the two empty lists. -/
def validate_digital_files_directories (entries : List FSNode) :
    List FSNode × List FSNode :=
  entries.foldl validate_digital_files_dir_step ([], [])

/-- C9: the nested_directories and empty_directories lists returned by
`validate_digital_files` can contain the same directory more than once:
a source directory whose single entry is a directory with one
subdirectory and no files yields that entry exactly twice in
nested_directories and exactly twice in empty_directories; with two such
directory entries the duplication compounds (the first entry appears four
times, the second twice). -/
theorem inspection_duplicates :
    validate_digital_files_directories [FSNode.dir "e" [FSNode.dir "sub" []]]
        = ([FSNode.dir "e" [FSNode.dir "sub" []], FSNode.dir "e" [FSNode.dir "sub" []]],
           [FSNode.dir "e" [FSNode.dir "sub" []], FSNode.dir "e" [FSNode.dir "sub" []]])
      ∧ (validate_digital_files_directories
            [FSNode.dir "e1" [FSNode.dir "s1" []], FSNode.dir "e2" [FSNode.dir "s2" []]]).1
          = [FSNode.dir "e1" [FSNode.dir "s1" []], FSNode.dir "e1" [FSNode.dir "s1" []],
             FSNode.dir "e2" [FSNode.dir "s2" []], FSNode.dir "e1" [FSNode.dir "s1" []],
             FSNode.dir "e1" [FSNode.dir "s1" []], FSNode.dir "e2" [FSNode.dir "s2" []]] :=
  ⟨rfl, rfl⟩
